import Mathlib

/-!
Verification of the line normalizer in lineman (src/main.rs).

Strings are modelled as lists of characters; a file's content is a
list of lines as produced by Rust's split_inclusive, so each line
may carry its original terminating newline character.
-/

namespace Lineman

/-- Rust's char::is_whitespace: the Unicode White_Space property
(U+0009..U+000D, U+0020, U+0085, U+00A0, U+1680, U+2000..U+200A,
U+2028, U+2029, U+202F, U+205F, U+3000). -/
def isRustWhitespace (c : Char) : Bool :=
  let n := c.toNat
  (0x09 ≤ n && n ≤ 0x0D) || n = 0x20 || n = 0x85 || n = 0xA0 || n = 0x1680 ||
  (0x2000 ≤ n && n ≤ 0x200A) || n = 0x2028 || n = 0x2029 || n = 0x202F ||
  n = 0x205F || n = 0x3000

/-- Rust's str::trim_end: remove the maximal suffix of whitespace
characters.  Implemented, like List.rdropWhile, by reversing, dropping
the whitespace prefix, and reversing back. -/
def trimEnd (line : List Char) : List Char :=
  List.rdropWhile isRustWhitespace line

/-- Rust's line.ends_with(newline): the last character is a newline. -/
def endsWithNewline (line : List Char) : Bool :=
  line.getLast? == some '\n'

/-- The per-line transformation inside clean_lines (the closure mapped
over the input lines in src/main.rs, lines 112-124): trim trailing
whitespace, then re-append a single newline when normalize_eof_newlines
is set or the raw line ended with a newline. -/
def cleanLine (normalizeEofNewlines : Bool) (line : List Char) : List Char :=
  let lineHasNewline := endsWithNewline line
  let trimmedLine := trimEnd line
  if normalizeEofNewlines || lineHasNewline then trimmedLine ++ ['\n']
  else trimmedLine

/-- clean_lines from src/main.rs: map the per-line transformation over
the lines, then (scanning from the end, via rev / skip_while / rev)
drop trailing lines whose trimmed content is empty while
normalize_eof_newlines is set; the returned flag compares the input
lines with the cleaned lines. -/
def cleanLines (lines : List (List Char)) (normalizeEofNewlines : Bool) :
    List (List Char) × Bool :=
  let cleanedLines :=
    (((lines.map (cleanLine normalizeEofNewlines)).reverse.dropWhile
      (fun line => normalizeEofNewlines && (trimEnd line).isEmpty)).reverse)
  (cleanedLines, lines != cleanedLines)

/-- Rust's str::split_inclusive on a separator character: split after
each occurrence of the separator, keeping the separator attached to the
segment it ends; a final segment without the separator is kept, and the
empty string yields no segments. -/
def splitInclusive (c : Char) : List Char → List (List Char)
  | [] => []
  | x :: xs =>
    if x = c then [x] :: splitInclusive c xs
    else
      match splitInclusive c xs with
      | [] => [[x]]
      | seg :: rest => (x :: seg) :: rest

/-- The per-file error type of src/main.rs. -/
inductive LinemanFileError
  | FileNotOpened
  | FileNotCleaned
deriving DecidableEq

/-- One filesystem write operation performed by clean_file: File::create
truncates the file, and each write_all appends a chunk of bytes. -/
inductive WriteOp
  | create
  | writeAll (data : List Char)
deriving DecidableEq

/-- The effect of a list of write operations on a file's content. -/
def applyWrites (content : List Char) (writes : List WriteOp) : List Char :=
  writes.foldl
    (fun acc w =>
      match w with
      | WriteOp.create => []
      | WriteOp.writeAll data => acc ++ data)
    content

/-- clean_file from src/main.rs, with the I/O made explicit: the input
is the result of fs::read_to_string (none when the read fails), the
output is the returned Result together with the list of write
operations performed (File::create followed by one write_all per
cleaned line when the lines changed; no write otherwise).  Writes are
assumed to succeed; the FileNotCleaned failure paths of File::create
and write_all are not modelled. -/
def cleanFile (readResult : Option (List Char)) (normalizeEofNewlines : Bool) :
    Except LinemanFileError Bool × List WriteOp :=
  match readResult with
  | none => (Except.error LinemanFileError.FileNotOpened, [])
  | some fileString =>
    let lines := splitInclusive '\n' fileString
    let result := cleanLines lines normalizeEofNewlines
    if result.2 then
      (Except.ok true, WriteOp.create :: result.1.map WriteOp.writeAll)
    else
      (Except.ok false, [])

/-- The should_clean_file decision in main (src/main.rs, lines 59-66):
when the extensions option is absent every file passes, otherwise the
file's extension must equal one of the listed extensions. -/
def shouldCleanFile (extensions : Option (List (List Char)))
    (currentFileExtension : List Char) : Bool :=
  match extensions with
  | none => true
  | some exts => exts.any (fun extension => extension == currentFileExtension)

/-- The per-file filter decision in main (src/main.rs, lines 59-77):
clean_file is reached only inside the if-let on path.extension(), so a
regular file is processed exactly when it has an extension and
should_clean_file accepts it. -/
def fileIsProcessed (extensions : Option (List (List Char)))
    (pathExtension : Option (List Char)) : Bool :=
  match pathExtension with
  | none => false
  | some currentFileExtension => shouldCleanFile extensions currentFileExtension

/-- Spec-side helper: the cleaned line with its terminating newline, if
any, removed. -/
def stripTerminator (line : List Char) : List Char :=
  if line.getLast? = some '\n' then line.dropLast else line

/-- Spec-side helper (claim C1): the per-line contract relating a raw
input line to its cleaned form: the cleaned line is the input minus its
maximal whitespace suffix, followed by a single newline exactly when
the flag is set or the raw line ended in a newline; before its
terminator the cleaned line ends in no whitespace, in particular in no
space or tab. -/
def perLineSpec (normalizeEofNewlines : Bool) (l0 l : List Char) : Prop :=
  l = trimEnd l0 ++
      (if normalizeEofNewlines || endsWithNewline l0 then ['\n'] else []) ∧
  (∃ ws, l0 = trimEnd l0 ++ ws ∧ ws.all isRustWhitespace = true) ∧
  (∀ c, (trimEnd l0).getLast? = some c → isRustWhitespace c = false) ∧
  (endsWithNewline l = (normalizeEofNewlines || endsWithNewline l0)) ∧
  (∀ c, (stripTerminator l).getLast? = some c → c ≠ ' ' ∧ c ≠ '\t')

/-! ### Helper lemmas about trimEnd -/

theorem rdropWhile_append_rtakeWhile {α : Type} (p : α → Bool) (l : List α) :
    l.rdropWhile p ++ l.rtakeWhile p = l := by
  rw [List.rdropWhile, List.rtakeWhile, ← List.reverse_append,
    List.takeWhile_append_dropWhile, List.reverse_reverse]

theorem trimEnd_prefix_self (l : List Char) : trimEnd l <+: l :=
  List.rdropWhile_prefix _ _

theorem trimEnd_last_not_ws (l : List Char) :
    ∀ c, (trimEnd l).getLast? = some c → isRustWhitespace c = false := by
  intro c hc
  have hne : trimEnd l ≠ [] := by
    intro h
    rw [h] at hc
    simp at hc
  have hlast := List.rdropWhile_last_not isRustWhitespace l hne
  rw [List.getLast?_eq_getLast _ hne] at hc
  have heq : (trimEnd l).getLast hne = c := by
    simpa using hc
  rw [← heq]
  simpa [trimEnd] using hlast

theorem trimEnd_ws_suffix (l : List Char) :
    ∃ ws, l = trimEnd l ++ ws ∧ ws.all isRustWhitespace = true := by
  refine ⟨l.rtakeWhile isRustWhitespace, ?_, ?_⟩
  · exact (rdropWhile_append_rtakeWhile isRustWhitespace l).symm
  · rw [List.all_eq_true]
    intro c hc
    exact List.mem_rtakeWhile_imp hc

theorem trimEnd_not_endsWithNewline (l : List Char) :
    endsWithNewline (trimEnd l) = false := by
  unfold endsWithNewline
  cases hc : (trimEnd l).getLast? with
  | none => simp
  | some c =>
    have := trimEnd_last_not_ws l c hc
    have hcne : c ≠ '\n' := by
      intro h
      rw [h] at this
      simp [isRustWhitespace] at this
    simp [hcne]

theorem trimEnd_trimEnd (l : List Char) : trimEnd (trimEnd l) = trimEnd l :=
  List.rdropWhile_idempotent _ _

theorem trimEnd_append_newline (l : List Char) :
    trimEnd (trimEnd l ++ ['\n']) = trimEnd l := by
  unfold trimEnd
  rw [List.rdropWhile_concat_pos]
  · exact List.rdropWhile_idempotent _ _
  · decide

/-! ### Helper lemmas about cleanLine -/

theorem cleanLine_eq (f : Bool) (l : List Char) :
    cleanLine f l = trimEnd l ++ (if f || endsWithNewline l then ['\n'] else []) := by
  by_cases h : (f || endsWithNewline l) = true <;> simp [cleanLine, h]

theorem endsWithNewline_cleanLine (f : Bool) (l : List Char) :
    endsWithNewline (cleanLine f l) = (f || endsWithNewline l) := by
  rw [cleanLine_eq]
  by_cases h : (f || endsWithNewline l) = true
  · rw [if_pos h, h]
    unfold endsWithNewline
    rw [List.getLast?_concat]
    simp
  · rw [if_neg h, List.append_nil, trimEnd_not_endsWithNewline]
    simp at h
    simp [h]

theorem stripTerminator_cleanLine (f : Bool) (l : List Char) :
    stripTerminator (cleanLine f l) = trimEnd l := by
  rw [cleanLine_eq]
  by_cases h : (f || endsWithNewline l) = true
  · rw [if_pos h]
    unfold stripTerminator
    rw [List.getLast?_concat, if_pos rfl, List.dropLast_concat]
  · rw [if_neg h, List.append_nil]
    unfold stripTerminator
    have := trimEnd_not_endsWithNewline l
    unfold endsWithNewline at this
    rw [beq_eq_false_iff_ne] at this
    rw [if_neg this]

theorem trimEnd_cleanLine (f : Bool) (l : List Char) :
    trimEnd (cleanLine f l) = trimEnd l := by
  rw [cleanLine_eq]
  by_cases h : (f || endsWithNewline l) = true
  · rw [if_pos h, trimEnd_append_newline]
  · rw [if_neg h, List.append_nil, trimEnd_trimEnd]

theorem cleanLine_true_fixed (l0 l : List Char) (h : l = trimEnd l0 ++ ['\n']) :
    cleanLine true l = l := by
  subst h
  rw [cleanLine_eq]
  simp only [Bool.true_or, if_pos]
  rw [trimEnd_append_newline]

/-! ### Helper lemmas about cleanLines -/

theorem cleanLines_fst (ls : List (List Char)) (f : Bool) :
    (cleanLines ls f).1 =
      (ls.map (cleanLine f)).rdropWhile (fun l => f && (trimEnd l).isEmpty) := by
  rfl

theorem cleanLines_snd (ls : List (List Char)) (f : Bool) :
    (cleanLines ls f).2 = (ls != (cleanLines ls f).1) := by
  rfl

theorem cleanLines_changed_iff (ls : List (List Char)) (f : Bool) :
    (cleanLines ls f).2 = true ↔ ls ≠ (cleanLines ls f).1 := by
  rw [cleanLines_snd]
  exact bne_iff_ne

theorem cleanLines_fst_false (ls : List (List Char)) :
    (cleanLines ls false).1 = ls.map (cleanLine false) := by
  rw [cleanLines_fst]
  rw [List.rdropWhile_eq_self_iff]
  intro hl
  simp

theorem mem_cleanLines (ls : List (List Char)) (f : Bool) (l : List Char)
    (hl : l ∈ (cleanLines ls f).1) : ∃ l0 ∈ ls, l = cleanLine f l0 := by
  rw [cleanLines_fst] at hl
  have hsub : l ∈ ls.map (cleanLine f) :=
    (List.rdropWhile_prefix _ _).subset hl
  rw [List.mem_map] at hsub
  obtain ⟨l0, hl0, heq⟩ := hsub
  exact ⟨l0, hl0, heq.symm⟩

/-! ### Helper lemmas about splitInclusive -/

theorem splitInclusive_segment (c : Char) :
    ∀ (s : List Char), ∀ l ∈ splitInclusive c s, l ≠ [] ∧ c ∉ l.dropLast := by
  intro s
  induction s with
  | nil =>
    intro l hl
    simp [splitInclusive] at hl
  | cons x xs ih =>
    intro l hl
    rw [splitInclusive] at hl
    by_cases hx : x = c
    · rw [if_pos hx] at hl
      rcases List.mem_cons.mp hl with h | h
      · subst h
        exact ⟨by simp, by simp⟩
      · exact ih l h
    · rw [if_neg hx] at hl
      cases hsp : splitInclusive c xs with
      | nil =>
        rw [hsp] at hl
        simp at hl
        subst hl
        exact ⟨by simp, by simp⟩
      | cons seg rest =>
        rw [hsp] at hl
        rcases List.mem_cons.mp hl with h | h
        · subst h
          have hseg := ih seg (by rw [hsp]; exact List.mem_cons_self _ _)
          refine ⟨by simp, ?_⟩
          have hdrop : (x :: seg).dropLast = x :: seg.dropLast := by
            cases seg with
            | nil => exact absurd rfl hseg.1
            | cons a as => rfl
          rw [hdrop]
          intro hmem
          rcases List.mem_cons.mp hmem with h1 | h1
          · exact hx h1.symm
          · exact hseg.2 h1
        · exact ih l (by rw [hsp]; exact List.mem_cons_of_mem _ h)

theorem splitInclusive_cons_of_segment (c : Char) (body rest : List Char)
    (hb : c ∉ body) :
    splitInclusive c (body ++ c :: rest) = (body ++ [c]) :: splitInclusive c rest := by
  induction body with
  | nil => simp [splitInclusive]
  | cons x xs ih =>
    have hx : ¬x = c := by
      intro h
      exact hb (h ▸ List.mem_cons_self x xs)
    rw [List.cons_append, splitInclusive, if_neg hx,
      ih (fun h => hb (List.mem_cons_of_mem _ h))]
    simp

theorem splitInclusive_eq_self (c : Char) :
    ∀ (ls : List (List Char)),
      (∀ l ∈ ls, ∃ body, c ∉ body ∧ l = body ++ [c]) →
      splitInclusive c ls.flatten = ls := by
  intro ls
  induction ls with
  | nil => intro _; rfl
  | cons l rest ih =>
    intro h
    obtain ⟨body, hb, hl⟩ := h l (List.mem_cons_self _ _)
    rw [List.flatten_cons, hl, List.append_assoc, List.singleton_append,
      splitInclusive_cons_of_segment c body rest.flatten hb,
      ih (fun x hx => h x (List.mem_cons_of_mem _ hx))]

/-- A character that appears in a line only possibly as its last
character does not appear in the line's trimmed form when it is
whitespace. -/
theorem ws_not_mem_trimEnd (w : Char) (hw : isRustWhitespace w = true)
    (l : List Char) (h : w ∉ l.dropLast) : w ∉ trimEnd l := by
  obtain ⟨ws, hdecomp, _⟩ := trimEnd_ws_suffix l
  intro hmem
  cases hws : ws with
  | nil =>
    rw [hws, List.append_nil] at hdecomp
    have hne : trimEnd l ≠ [] := by
      intro hnil
      rw [hnil] at hmem
      simp at hmem
    have hmem2 : w ∈ (trimEnd l).dropLast ++ [(trimEnd l).getLast hne] := by
      rw [List.dropLast_append_getLast hne]
      exact hmem
    rcases List.mem_append.mp hmem2 with h1 | h1
    · apply h
      rw [hdecomp]
      exact h1
    · have hlastw : (trimEnd l).getLast? = some w := by
        rw [List.getLast?_eq_getLast _ hne]
        simpa using (List.mem_singleton.mp h1).symm
      have hcontra := trimEnd_last_not_ws l w hlastw
      rw [hw] at hcontra
      simp at hcontra
  | cons a as =>
    apply h
    rw [hdecomp, hws]
    rw [List.dropLast_append_of_ne_nil _ (by simp : (a :: as : List Char) ≠ [])]
    exact List.mem_append_left _ hmem

/-- When normalize_eof_newlines is set, the cleaned sequence is its own
split_inclusive decomposition, provided each input line carries the
newline character only as its final character. -/
theorem cleanLines_true_splitNormal (ls : List (List Char))
    (hseg : ∀ l ∈ ls, '\n' ∉ l.dropLast) :
    splitInclusive '\n' (cleanLines ls true).1.flatten = (cleanLines ls true).1 := by
  apply splitInclusive_eq_self
  intro l hl
  obtain ⟨l0, hl0, heq⟩ := mem_cleanLines ls true l hl
  refine ⟨trimEnd l0, ?_, ?_⟩
  · exact ws_not_mem_trimEnd '\n' (by decide) l0 (hseg l0 hl0)
  · rw [heq, cleanLine_eq]
    simp

/-! ### Length lemmas for the disabled-normalization case -/

theorem eq_dropLast_append_newline (l : List Char)
    (h : endsWithNewline l = true) : l = l.dropLast ++ ['\n'] := by
  unfold endsWithNewline at h
  rw [beq_iff_eq] at h
  have hne : l ≠ [] := by
    intro hl
    rw [hl] at h
    simp at h
  have hlast : l.getLast hne = '\n' := by
    rw [List.getLast?_eq_getLast _ hne] at h
    exact Option.some_injective _ h
  conv_lhs => rw [← List.dropLast_append_getLast hne]
  rw [hlast]

theorem trimEnd_of_newline (l : List Char) (h : endsWithNewline l = true) :
    trimEnd l = trimEnd l.dropLast := by
  conv_lhs => rw [eq_dropLast_append_newline l h]
  unfold trimEnd
  rw [List.rdropWhile_concat_pos]
  decide

theorem cleanLine_false_length_le (l : List Char) :
    (cleanLine false l).length ≤ l.length := by
  rw [cleanLine_eq]
  simp only [Bool.false_or]
  by_cases h : endsWithNewline l = true
  · rw [if_pos h, trimEnd_of_newline l h]
    have h1 := (trimEnd_prefix_self l.dropLast).length_le
    have h2 : l.length = l.dropLast.length + 1 := by
      conv_lhs => rw [eq_dropLast_append_newline l h]
      simp
    simp only [List.length_append, List.length_singleton]
    omega
  · rw [if_neg h, List.append_nil]
    exact (trimEnd_prefix_self l).length_le

theorem cleanLine_false_length_eq (l : List Char)
    (h : (cleanLine false l).length = l.length) : cleanLine false l = l := by
  rw [cleanLine_eq] at h ⊢
  simp only [Bool.false_or] at h ⊢
  by_cases hn : endsWithNewline l = true
  · rw [if_pos hn] at h ⊢
    rw [trimEnd_of_newline l hn] at h ⊢
    have h2 : l.length = l.dropLast.length + 1 := by
      conv_lhs => rw [eq_dropLast_append_newline l hn]
      simp
    simp only [List.length_append, List.length_singleton] at h
    have h3 : (trimEnd l.dropLast).length = l.dropLast.length := by omega
    rw [(trimEnd_prefix_self l.dropLast).eq_of_length h3]
    exact (eq_dropLast_append_newline l hn).symm
  · rw [if_neg hn, List.append_nil] at h ⊢
    exact (trimEnd_prefix_self l).eq_of_length h

theorem join_map_cleanLine_false_length_le (ls : List (List Char)) :
    (ls.map (cleanLine false)).flatten.length ≤ ls.flatten.length := by
  induction ls with
  | nil => simp
  | cons l rest ih =>
    simp only [List.map_cons, List.flatten_cons, List.length_append]
    have := cleanLine_false_length_le l
    omega

theorem map_cleanLine_false_of_join_eq :
    ∀ (ls : List (List Char)),
      (ls.map (cleanLine false)).flatten = ls.flatten → ls.map (cleanLine false) = ls := by
  intro ls
  induction ls with
  | nil => intro _; rfl
  | cons l rest ih =>
    intro h
    simp only [List.map_cons, List.flatten_cons] at h
    have hlen := congrArg List.length h
    simp only [List.length_append] at hlen
    have h1 := cleanLine_false_length_le l
    have h2 := join_map_cleanLine_false_length_le rest
    have hleq : (cleanLine false l).length = l.length := by omega
    have hcl : cleanLine false l = l := cleanLine_false_length_eq l hleq
    rw [hcl] at h
    simp only [List.map_cons, hcl]
    rw [ih (List.append_cancel_left h)]

theorem map_eq_self_of_mem {α : Type} (f : α → α) :
    ∀ (l : List α), (∀ a ∈ l, f a = a) → l.map f = l := by
  intro l
  induction l with
  | nil => intro _; rfl
  | cons x xs ih =>
    intro h
    simp only [List.map_cons]
    rw [h x (List.mem_cons_self x xs),
      ih (fun a ha => h a (List.mem_cons_of_mem _ ha))]

example : cleanLines [['a', ' ', '\n'], ['b', '\t', '\n'],
    [' ', ' ', '\n'], ['c']] true =
    ([['a', '\n'], ['b', '\n'], ['\n'], ['c', '\n']], true) := by decide

example : cleanLines [['a', '\n'], ['\n'], ['\n'], ['\n']] true =
    ([['a', '\n']], true) := by decide

example : cleanLines [['a', '\n'], ['\n'], ['\n']] false =
    ([['a', '\n'], ['\n'], ['\n']], false) := by decide

example : splitInclusive '\n' ['a', '\n', 'b'] = [['a', '\n'], ['b']] := by decide

/-! ### Claim theorems -/

/-- C1.  Per-line rule: every line of the cleaned sequence is the image
of an input line under the per-line transformation, and for every input
line that transformation yields the line with all trailing whitespace
removed (a whitespace suffix is split off and the remaining prefix ends
in no whitespace character), followed by a single newline exactly when
normalize_eof is set or the original line ended with a newline; the
cleaned line carries no trailing space or tab before its terminator. -/
theorem per_line_rule (f : Bool) (ls : List (List Char)) :
    (∀ l ∈ (cleanLines ls f).1, ∃ l0 ∈ ls, l = cleanLine f l0) ∧
    (∀ l0 ∈ ls, perLineSpec f l0 (cleanLine f l0)) := by
  constructor
  · exact mem_cleanLines ls f
  · intro l0 _
    refine ⟨cleanLine_eq f l0, trimEnd_ws_suffix l0, trimEnd_last_not_ws l0,
      endsWithNewline_cleanLine f l0, ?_⟩
    intro c hc
    rw [stripTerminator_cleanLine] at hc
    have hnw := trimEnd_last_not_ws l0 c hc
    constructor
    · intro h
      rw [h] at hnw
      simp [isRustWhitespace] at hnw
    · intro h
      rw [h] at hnw
      simp [isRustWhitespace] at hnw

/-- Witness for C1 at the concrete input line "a " with the flag set. -/
theorem per_line_rule_witness :
    (∃ l0 ∈ [['a', ' ']], ['a', '\n'] = cleanLine true l0) ∧
    perLineSpec true ['a', ' '] (cleanLine true ['a', ' ']) :=
  ⟨(per_line_rule true [['a', ' ']]).1 ['a', '\n'] (by decide),
    (per_line_rule true [['a', ' ']]).2 ['a', ' '] (by decide)⟩

/-- C2.  EOF blank-line collapse: with normalize_eof set, the cleaned
sequence is a prefix of the per-line-cleaned sequence, every dropped
line past that prefix has empty trimmed content, and the output, when
non-empty, ends with a non-blank line consisting of its trimmed content
followed by a single newline. -/
theorem eof_blank_collapse (ls : List (List Char)) :
    (cleanLines ls true).1 <+: ls.map (cleanLine true) ∧
    (∀ l ∈ (ls.map (cleanLine true)).drop (cleanLines ls true).1.length,
      trimEnd l = []) ∧
    (∀ h : (cleanLines ls true).1 ≠ [],
      trimEnd ((cleanLines ls true).1.getLast h) ≠ [] ∧
      (cleanLines ls true).1.getLast h =
        trimEnd ((cleanLines ls true).1.getLast h) ++ ['\n']) := by
  have hfst := cleanLines_fst ls true
  refine ⟨?_, ?_, ?_⟩
  · rw [hfst]
    exact List.rdropWhile_prefix _ _
  · intro l hl
    have hdecomp := rdropWhile_append_rtakeWhile
      (fun l => true && (trimEnd l).isEmpty) (ls.map (cleanLine true))
    rw [← hfst] at hdecomp
    have hdrop : (ls.map (cleanLine true)).drop (cleanLines ls true).1.length =
        (ls.map (cleanLine true)).rtakeWhile
          (fun l => true && (trimEnd l).isEmpty) := by
      conv_lhs => rw [← hdecomp]
      exact List.drop_left _ _
    rw [hdrop] at hl
    have := List.mem_rtakeWhile_imp hl
    simp only [Bool.true_and, List.isEmpty_iff] at this
    exact this
  · intro h
    have hlast := List.rdropWhile_last_not
      (fun l => true && (trimEnd l).isEmpty) (ls.map (cleanLine true))
      (by rw [← hfst]; exact h)
    simp only [Bool.true_and, Bool.not_eq_true, List.isEmpty_eq_false] at hlast
    have hlast2 : trimEnd ((cleanLines ls true).1.getLast h) ≠ [] := hlast
    refine ⟨hlast2, ?_⟩
    obtain ⟨l0, _, heq⟩ := mem_cleanLines ls true _ (List.getLast_mem h)
    rw [heq, trimEnd_cleanLine, cleanLine_eq]
    simp

/-- Witness for C2: the membership part applied to the dropped blank
line of the input ["a", "\n"] with the flag set. -/
theorem eof_blank_collapse_witness : trimEnd ['\n'] = [] :=
  (eof_blank_collapse [['a'], ['\n']]).2.1 ['\n'] (by decide)

/-- C3, counterexample: on the two-line input ["x", "\n"] (not a
split_inclusive decomposition) with normalize_eof set, clean_lines
reports changed = true although the rendered output equals the rendered
input, refuting the claimed equivalence for arbitrary line sequences. -/
theorem changed_flag_counterexample :
    ¬(((cleanLines [['x'], ['\n']] true).2 = true) ↔
      (cleanLines [['x'], ['\n']] true).1.flatten ≠
        ([['x'], ['\n']] : List (List Char)).flatten) := by
  decide

/-- C3, amended: for every input sequence that is the split_inclusive
decomposition of its own rendering — which is exactly the shape of
every sequence clean_file passes to clean_lines — the changed flag is
true iff the rendered output differs from the rendered input. -/
theorem changed_flag_iff_render_ne (ls : List (List Char)) (f : Bool)
    (h : splitInclusive '\n' ls.flatten = ls) :
    ((cleanLines ls f).2 = true ↔
      (cleanLines ls f).1.flatten ≠ ls.flatten) := by
  rw [cleanLines_changed_iff]
  constructor
  · intro hne hj
    apply hne
    cases f with
    | false =>
      have hm := map_cleanLine_false_of_join_eq ls
        (by rw [← cleanLines_fst_false]; exact hj)
      rw [cleanLines_fst_false]
      exact hm.symm
    | true =>
      have hseg : ∀ l ∈ ls, '\n' ∉ l.dropLast := by
        intro l hl
        rw [← h] at hl
        exact (splitInclusive_segment '\n' ls.flatten l hl).2
      have hsn := cleanLines_true_splitNormal ls hseg
      rw [hj, h] at hsn
      exact hsn
  · intro hj hne
    apply hj
    rw [← hne]

/-- Witness for C3 (amended) at the one-line file "a \n". -/
theorem changed_flag_iff_render_ne_witness :
    ((cleanLines [['a', ' ', '\n']] true).2 = true ↔
      (cleanLines [['a', ' ', '\n']] true).1.flatten ≠
        ([['a', ' ', '\n']] : List (List Char)).flatten) :=
  changed_flag_iff_render_ne [['a', ' ', '\n']] true (by decide)

/-- C4, counterexample: with no extensions filter configured, a regular
file without an extension is nevertheless not processed, because
clean_file is only reached inside the if-let on path.extension(). -/
theorem extensionless_skipped_counterexample :
    ¬(fileIsProcessed none none = true) := by
  decide

/-- C4, amended: when the extensions list is absent, exactly the
regular files that have an extension are processed; a file without an
extension is never processed, whatever the configuration. -/
theorem extension_filter_amended :
    (∀ ext : List Char, fileIsProcessed none (some ext) = true) ∧
    (∀ exts : Option (List (List Char)), fileIsProcessed exts none = false) :=
  ⟨fun _ => rfl, fun _ => rfl⟩

/-- C5.  When the normalization reports no change, clean_file performs
no write operation at all and the file content is untouched; a write
operation occurs only when the change flag is true. -/
theorem no_write_when_unchanged (content : List Char) (f : Bool) :
    ((cleanFile (some content) f).1 = Except.ok false →
      (cleanFile (some content) f).2 = [] ∧
      applyWrites content (cleanFile (some content) f).2 = content) ∧
    ((cleanFile (some content) f).2 ≠ [] →
      (cleanFile (some content) f).1 = Except.ok true) := by
  by_cases h : (cleanLines (splitInclusive '\n' content) f).2 = true
  · have heq : cleanFile (some content) f =
        (Except.ok true, WriteOp.create ::
          (cleanLines (splitInclusive '\n' content) f).1.map WriteOp.writeAll) := by
      simp [cleanFile, h]
    rw [heq]
    constructor
    · intro hok
      simp at hok
    · intro _
      rfl
  · have heq : cleanFile (some content) f = (Except.ok false, []) := by
      simp [cleanFile, h]
    rw [heq]
    constructor
    · intro _
      exact ⟨rfl, rfl⟩
    · intro hne
      exact absurd rfl hne

/-- Witness for C5 at the already-clean file "a\n" (no change, so no
write) and at the dirty file "a " (a write, so changed is true). -/
theorem no_write_when_unchanged_witness :
    ((cleanFile (some ['a', '\n']) true).2 = [] ∧
      applyWrites ['a', '\n'] (cleanFile (some ['a', '\n']) true).2 = ['a', '\n']) ∧
    (cleanFile (some ['a', ' ']) true).1 = Except.ok true :=
  ⟨(no_write_when_unchanged ['a', '\n'] true).1 (by rfl),
    (no_write_when_unchanged ['a', ' '] true).2 (by decide)⟩

/-- C6.  With normalize_eof disabled, the cleaned sequence has exactly
as many lines as the input, and line by line the output is the input
trimmed of trailing whitespace with its original newline presence
preserved. -/
theorem disabled_preserves_lines (ls : List (List Char)) :
    (cleanLines ls false).1.length = ls.length ∧
    List.Forall₂
      (fun o l => o = trimEnd l ++ (if endsWithNewline l then ['\n'] else []) ∧
        endsWithNewline o = endsWithNewline l)
      (cleanLines ls false).1 ls := by
  have hforall : List.Forall₂
      (fun o l => o = trimEnd l ++ (if endsWithNewline l then ['\n'] else []) ∧
        endsWithNewline o = endsWithNewline l)
      (cleanLines ls false).1 ls := by
    rw [cleanLines_fst_false]
    induction ls with
    | nil => exact List.Forall₂.nil
    | cons l rest ih =>
      refine List.Forall₂.cons ⟨?_, ?_⟩ ih
      · rw [cleanLine_eq]
        simp
      · rw [endsWithNewline_cleanLine]
        simp
  exact ⟨hforall.length_eq, hforall⟩

/-- C7.  Idempotence: running clean_lines with normalize_eof set on its
own cleaned output returns that output unchanged with a false changed
flag. -/
theorem normalize_idempotent (ls : List (List Char)) :
    cleanLines (cleanLines ls true).1 true = ((cleanLines ls true).1, false) := by
  have hfix : ∀ l ∈ (cleanLines ls true).1, cleanLine true l = l := by
    intro l hl
    obtain ⟨l0, _, heq⟩ := mem_cleanLines ls true l hl
    apply cleanLine_true_fixed (trimEnd l0)
    rw [heq, cleanLine_eq, trimEnd_trimEnd]
    simp
  have hmap := map_eq_self_of_mem (cleanLine true) _ hfix
  have hfst : (cleanLines (cleanLines ls true).1 true).1 = (cleanLines ls true).1 := by
    rw [cleanLines_fst, hmap, cleanLines_fst, List.rdropWhile_idempotent]
  have hsnd : (cleanLines (cleanLines ls true).1 true).2 = false := by
    rw [cleanLines_snd, hfst]
    exact bne_self_eq_false _
  rw [Prod.ext_iff]
  exact ⟨hfst, hsnd⟩

/-- C8.  No-op purity: a false changed flag implies the rendered output
equals the rendered input byte for byte. -/
theorem unchanged_render_eq (ls : List (List Char)) (f : Bool)
    (h : (cleanLines ls f).2 = false) :
    (cleanLines ls f).1.flatten = ls.flatten := by
  have heq : ls = (cleanLines ls f).1 := by
    by_contra hne
    have htrue : (cleanLines ls f).2 = true := (cleanLines_changed_iff ls f).mpr hne
    rw [h] at htrue
    exact Bool.false_ne_true htrue
  rw [← heq]

/-- Witness for C8 at the already-clean file "a\n". -/
theorem unchanged_render_eq_witness :
    (cleanLines [['a', '\n']] true).1.flatten =
      ([['a', '\n']] : List (List Char)).flatten :=
  unchanged_render_eq [['a', '\n']] true (by decide)

/-- C9.  A file all of whose lines have empty trimmed content is
cleared entirely by normalize_eof: the output is the empty sequence,
and the changed flag is false exactly for the empty input. -/
theorem all_blank_clears (ls : List (List Char))
    (h : ∀ l ∈ ls, trimEnd l = []) :
    (cleanLines ls true).1 = [] ∧ (cleanLines ls true).2 = !ls.isEmpty := by
  have hfst : (cleanLines ls true).1 = [] := by
    rw [cleanLines_fst, List.rdropWhile_eq_nil_iff]
    intro l hl
    rw [List.mem_map] at hl
    obtain ⟨l0, hl0, heq⟩ := hl
    rw [← heq, trimEnd_cleanLine, h l0 hl0]
    simp
  refine ⟨hfst, ?_⟩
  rw [cleanLines_snd, hfst]
  cases ls with
  | nil => rfl
  | cons a as => simp

/-- Witness for C9 at the one-line all-blank file " \n". -/
theorem all_blank_clears_witness :
    (cleanLines [[' ', '\n']] true).1 = [] ∧
    (cleanLines [[' ', '\n']] true).2 = !([[' ', '\n']] : List (List Char)).isEmpty :=
  all_blank_clears [[' ', '\n']] (by decide)

/-- C10.  Read-error atomicity: when the read fails, clean_file returns
the FileNotOpened error having performed no write operation, so any
file content is left unchanged. -/
theorem read_error_no_write (f : Bool) (content : List Char) :
    (cleanFile none f).1 = Except.error LinemanFileError.FileNotOpened ∧
    (cleanFile none f).2 = [] ∧
    applyWrites content (cleanFile none f).2 = content :=
  ⟨rfl, rfl, rfl⟩

end Lineman
